import Mathlib

/-!
Verification development for the `git-remote-https+iap` helper
(`cmd/git-remote-https+iap/main.go`).

Strings are modelled as `List Char` (`Str`); Go operates on bytes, and all
inputs relevant here are ASCII, where the two views agree (each `Char` plays
the role of one Go byte; bytes `>= 0x80` correspond to chars with
`toNat >= 128`).

The helper's own code calls the Go standard library `net/url.Parse`.  The
fragment of that library that decides the behaviour of `toHTTPSBaseDomain`
and `configureIAP` (scheme splitting, query/fragment splitting, authority
and host extraction, percent-unescaping with host-character validation,
port validation) is embedded below, definition by definition, following
`net/url`'s `getScheme`, `split`, `parse`, `parseAuthority`, `parseHost`,
`unescape`, `shouldEscape`, `validOptionalPort` and `validUserinfo`.
-/

abbrev Str := List Char

/-- Error cases of the embedded `net/url` fragment.  The Go code carries
error strings; only the case distinction matters here. -/
inductive UErr where
  | invalidControl
  | missingScheme
  | escapeError (s : Str)
  | invalidHostChar (c : Char)
  | missingBracket
  | invalidPort (s : Str)
  | firstSegmentColon
  | invalidUserinfo
deriving DecidableEq

/-- Encoding modes of `net/url`'s `unescape` (only the modes the embedded
paths use). -/
inductive Encoding where
  | host
  | zone
  | path
  | userPassword
  | fragment
deriving DecidableEq

/-- Go `stringContainsCTLByte`: byte `< 0x20` or `= 0x7f`. -/
def isCTL (c : Char) : Bool := c.toNat < 32 || c.toNat == 127

def containsCTL (l : Str) : Bool := l.any isCTL

/-- ASCII letter (Go: `'a' <= c && c <= 'z' || 'A' <= c && c <= 'Z'`),
stated on code points: 97..122 and 65..90. -/
def isAlphaGo (c : Char) : Bool := (97 ≤ c.toNat && c.toNat ≤ 122) || (65 ≤ c.toNat && c.toNat ≤ 90)

/-- ASCII digit (code points 48..57). -/
def isDigitGo (c : Char) : Bool := 48 ≤ c.toNat && c.toNat ≤ 57

/-- Go `ishex`. -/
def ishexGo (c : Char) : Bool :=
  isDigitGo c || (97 ≤ c.toNat && c.toNat ≤ 102) || (65 ≤ c.toNat && c.toNat ≤ 70)

/-- Go `unhex`. -/
def unhexGo (c : Char) : Nat :=
  if isDigitGo c then c.toNat - 48
  else if 97 ≤ c.toNat && c.toNat ≤ 102 then c.toNat - 97 + 10
  else if 65 ≤ c.toNat && c.toNat ≤ 70 then c.toNat - 65 + 10
  else 0

/-- Go `shouldEscape(c, encodeHost)` (identical for `encodeZone`), stated on
code points.  Allowed without escaping: alphanumerics; the host extras
`! $ & ' ( ) * + , ; = : [ ] < > "` (codes 33 36 38 39 40 41 42 43 44 59 61
58 91 93 60 62 34); and the unreserved marks `- _ . ~` (45 95 46 126).
Everything else must be escaped, i.e. is invalid as a raw host character. -/
def shouldEscapeHost (c : Char) : Bool :=
  let n := c.toNat
  if (97 ≤ n ∧ n ≤ 122) ∨ (65 ≤ n ∧ n ≤ 90) ∨ (48 ≤ n ∧ n ≤ 57) then false
  else if n = 33 ∨ n = 36 ∨ n = 38 ∨ n = 39 ∨ n = 40 ∨ n = 41 ∨ n = 42 ∨ n = 43 ∨
          n = 44 ∨ n = 59 ∨ n = 61 ∨ n = 58 ∨ n = 91 ∨ n = 93 ∨ n = 60 ∨ n = 62 ∨ n = 34 then false
  else if n = 45 ∨ n = 95 ∨ n = 46 ∨ n = 126 then false
  else true

/-- Go `net/url`'s internal `split(s, sep, cutc)`: split at the first
occurrence of `sep`; with `cutc` the separator is dropped from the tail.
When `sep` does not occur, the result is `(s, "")`. -/
def splitChar : Str → Char → Bool → Str × Str
  | [], _, _ => ([], [])
  | a :: rest, sep, cutc =>
    if a = sep then ([], if cutc then rest else a :: rest)
    else ((splitChar rest sep cutc).1.cons a, (splitChar rest sep cutc).2)

/-- Go `strings.LastIndex(s, string(c))` for a one-character needle. -/
def lastIndexOfChar : Str → Char → Option Nat
  | [], _ => none
  | a :: rest, c =>
    match lastIndexOfChar rest c with
    | some i => some (i + 1)
    | none => if a = c then some 0 else none

/-- Go `strings.Index(s, pat)` for a non-empty needle. -/
def indexOfSub (pat : Str) : Str → Option Nat
  | [] => if pat.isPrefixOf ([] : Str) then some 0 else none
  | a :: rest =>
    if pat.isPrefixOf (a :: rest) then some 0
    else (indexOfSub pat rest).map (· + 1)

/-- Go `net/url`'s `unescape`.  In `host`/`zone` mode, raw characters that
would need escaping are rejected; in `host` mode a `%`-escape must be `%25`
or have first hex digit `>= 8` (a non-ASCII byte); in `zone` mode a
`%`-escape must be `%25`, a space, or decode to a byte valid raw in hosts. -/
def unescape : Str → Encoding → Except UErr Str
  | [], _ => .ok []
  | a :: rest, mode =>
    if a = '%' then
      match rest with
      | c1 :: c2 :: rest2 =>
        if ishexGo c1 && ishexGo c2 then
          if mode = .host ∧ unhexGo c1 < 8 ∧ ¬ (c1 = '2' ∧ c2 = '5') then
            .error (.escapeError ['%', c1, c2])
          else if mode = .zone ∧ ¬ (c1 = '2' ∧ c2 = '5') ∧
                  unhexGo c1 * 16 + unhexGo c2 ≠ 32 ∧
                  shouldEscapeHost (Char.ofNat (unhexGo c1 * 16 + unhexGo c2)) then
            .error (.escapeError ['%', c1, c2])
          else
            match unescape rest2 mode with
            | .ok t => .ok ((Char.ofNat (unhexGo c1 * 16 + unhexGo c2)) :: t)
            | .error e => .error e
        else .error (.escapeError ['%', c1, c2])
      | _ => .error (.escapeError ('%' :: rest))
    else
      if (mode = .host ∨ mode = .zone) ∧ a.toNat < 128 ∧ shouldEscapeHost a then
        .error (.invalidHostChar a)
      else
        match unescape rest mode with
        | .ok t => .ok (a :: t)
        | .error e => .error e

/-- Go `validOptionalPort`: empty, or `:` followed by digits only. -/
def validOptionalPort : Str → Bool
  | [] => true
  | a :: digits => a = ':' && digits.all isDigitGo

/-- Go `net/url`'s `parseHost`: bracketed IPv6 form (with `%25` zone
handling and port validation after `]`), or optional `:port` validation,
then unescaping with host-character validation. -/
def parseHost (host : Str) : Except UErr Str :=
  if host.head? = some '[' then
    match lastIndexOfChar host ']' with
    | none => .error .missingBracket
    | some i =>
      if ¬ validOptionalPort (host.drop (i + 1)) then .error (.invalidPort (host.drop (i + 1)))
      else
        match indexOfSub ['%', '2', '5'] (host.take i) with
        | some zone =>
          match unescape (host.take zone) .host with
          | .error e => .error e
          | .ok h1 =>
            match unescape ((host.take i).drop zone) .zone with
            | .error e => .error e
            | .ok h2 =>
              match unescape (host.drop i) .host with
              | .error e => .error e
              | .ok h3 => .ok (h1 ++ h2 ++ h3)
        | none => unescape host .host
  else
    match lastIndexOfChar host ':' with
    | none => unescape host .host
    | some i =>
      if ¬ validOptionalPort (host.drop i) then .error (.invalidPort (host.drop i))
      else unescape host .host

/-- Go `validUserinfo`. -/
def validUserinfo (l : Str) : Bool :=
  l.all fun c =>
    isAlphaGo c || isDigitGo c ||
    c = '-' || c = '.' || c = '_' || c = ':' || c = '~' || c = '!' || c = '$' ||
    c = '&' || c = Char.ofNat 39 || c = '(' || c = ')' || c = '*' || c = '+' ||
    c = ',' || c = ';' || c = '=' || c = '%' || c = '@'

/-- Go `net/url`'s `parseAuthority`: the host is everything after the last
`@`; the userinfo before it is validated and unescaped (its value is only
recorded as present/absent here, the helper never reads it). -/
def parseAuthority (authority : Str) : Except UErr (Bool × Str) :=
  match lastIndexOfChar authority '@' with
  | none =>
    match parseHost authority with
    | .error e => .error e
    | .ok h => .ok (false, h)
  | some i =>
    match parseHost (authority.drop (i + 1)) with
    | .error e => .error e
    | .ok h =>
      if ¬ validUserinfo (authority.take i) then .error .invalidUserinfo
      else if ¬ (authority.take i).contains ':' then
        match unescape (authority.take i) .userPassword with
        | .error e => .error e
        | .ok _ => .ok (true, h)
      else
        match unescape (splitChar (authority.take i) ':' true).1 .userPassword with
        | .error e => .error e
        | .ok _ =>
          match unescape (splitChar (authority.take i) ':' true).2 .userPassword with
          | .error e => .error e
          | .ok _ => .ok (true, h)

/-- Go `getScheme`, written with an accumulator of consumed characters
(Go tracks the index `i`; `acc = []` corresponds to `i == 0`, and
`acc.reverse ++ current` is the original string). -/
def getSchemeAux : Str → Str → Except UErr (Str × Str)
  | acc, [] => .ok ([], acc.reverse)
  | acc, c :: cs =>
    if isAlphaGo c then getSchemeAux (c :: acc) cs
    else if isDigitGo c || c = '+' || c = '-' || c = '.' then
      if acc.isEmpty then .ok ([], c :: cs)
      else getSchemeAux (c :: acc) cs
    else if c = ':' then
      if acc.isEmpty then .error .missingScheme
      else .ok (acc.reverse, cs)
    else .ok ([], acc.reverse ++ (c :: cs))

def getScheme (l : Str) : Except UErr (Str × Str) := getSchemeAux [] l

/-- ASCII lower-casing of one char (`strings.ToLower` restricted to the
ASCII schemes that occur here). -/
def lowerChar (c : Char) : Char :=
  if 65 ≤ c.toNat ∧ c.toNat ≤ 90 then Char.ofNat (c.toNat + 32) else c

def lowerStr (l : Str) : Str := l.map lowerChar

/-- The components of Go's `url.URL` that the embedded paths compute
(`RawPath`/`RawFragment` bookkeeping and the userinfo value are dropped;
`opq` is the `Opaque` field). -/
structure URLModel where
  scheme : Str
  opq : Str
  host : Str
  path : Str
  hasUser : Bool
  forceQuery : Bool
  rawQuery : Str
  fragment : Str
deriving DecidableEq

/-- Go `URL.setPath` (its error cases; `RawPath` bookkeeping dropped),
fused with building the final record. -/
def setPathFinish (scheme : Str) (fq : Bool) (rq : Str) (host : Str) (hasUser : Bool)
    (p : Str) : Except UErr URLModel :=
  match unescape p .path with
  | .error e => .error e
  | .ok pth => .ok ⟨scheme, [], host, pth, hasUser, fq, rq, []⟩

/-- The tail of Go `net/url`'s `parse` after scheme and query have been
split off: opaque URLs, the colon-in-first-segment check, the authority
section, and `setPath` (with `viaRequest = false`). -/
def parseAfterQuery (scheme : Str) (fq : Bool) (rq : Str) (rest1 : Str) :
    Except UErr URLModel :=
  if rest1.head? = some '/' then
    if (decide (scheme ≠ []) || !(['/', '/', '/'].isPrefixOf rest1)) &&
        (['/', '/'].isPrefixOf rest1) then
      match parseAuthority (splitChar (rest1.drop 2) '/' false).1 with
      | .error e => .error e
      | .ok hu => setPathFinish scheme fq rq hu.2 hu.1 (splitChar (rest1.drop 2) '/' false).2
    else setPathFinish scheme fq rq [] false rest1
  else
    if scheme ≠ [] then .ok ⟨scheme, rest1, [], [], false, fq, rq, []⟩
    else if (splitChar rest1 '/' true).1.contains ':' then .error .firstSegmentColon
    else setPathFinish scheme fq rq [] false rest1

/-- Go `net/url`'s `parse(rawURL, false)`: control-character check, the
`"*"` special case, scheme extraction and lower-casing, the
`ForceQuery`/query split, then `parseAfterQuery`. -/
def parseGo (rawURL : Str) : Except UErr URLModel :=
  if containsCTL rawURL then .error .invalidControl
  else if rawURL = ['*'] then .ok ⟨[], [], [], ['*'], false, false, [], []⟩
  else
    match getScheme rawURL with
    | .error e => .error e
    | .ok sr =>
      if sr.2.getLast? = some '?' ∧ ¬ (sr.2.dropLast.contains '?' = true) then
        parseAfterQuery (lowerStr sr.1) true [] sr.2.dropLast
      else
        parseAfterQuery (lowerStr sr.1) false (splitChar sr.2 '?' true).2
          (splitChar sr.2 '?' true).1

/-- Go `net/url.Parse`: cut the fragment at the first `#`, parse the rest,
then unescape and attach the fragment. -/
def urlParse (rawURL : Str) : Except UErr URLModel :=
  match parseGo (splitChar rawURL '#' true).1 with
  | .error e => .error e
  | .ok u =>
    if (splitChar rawURL '#' true).2 = [] then .ok u
    else
      match unescape (splitChar rawURL '#' true).2 .fragment with
      | .error e => .error e
      | .ok f => .ok ⟨u.scheme, u.opq, u.host, u.path, u.hasUser, u.forceQuery, u.rawQuery, f⟩

/-- The characters of `"https://"`. -/
def httpsBase : Str := ['h', 't', 't', 'p', 's', ':', '/', '/']

/-- `toHTTPSBaseDomain` (main.go:214): parse the address and rebuild
`https://<host>`; on a parse error return the error (the Go function
returns `("", err)`). -/
def toHTTPSBaseDomain (addr : Str) : Except UErr Str :=
  match urlParse addr with
  | .error e => .error e
  | .ok u => .ok (httpsBase ++ u.host)

/-! ## The IAP auth-state model (the cache / acquisition orchestration)

`handleIAPAuthCookieFor` (main.go:177) is the `Resolve` operation of the
spec.  It calls three things from the `internal/iap` package, which is not
part of the analysed sources, so they enter the model as follows:
`iap.ReadAuthState` and `iap.NewAuth` are external capabilities of the
environment (`IAPEnv`), and `Cookie.Expired` is modelled from the spec. -/

/-- Token claims: the absolute expiry instant (spec 3, `claims.expiresAt`,
seconds since epoch). -/
structure AuthClaims where
  expiresAt : Int
deriving DecidableEq

/-- The IAP cookie of a cached credential: decoded claims plus the raw
token string replayed to the proxy (spec 3, Token / CachedCredential). -/
structure IAPCookie where
  claims : AuthClaims
  tokenRaw : Str
deriving DecidableEq

/-- Modelled from the spec: `Cookie.Expired` of the `internal/iap` package
is not among the analysed sources.  Spec 4.2: expiry compares
`token.claims.expiresAt` against current wall-clock time with no leeway
window; a token expiring one second in the past is already expired. -/
def IAPCookie.Expired (c : IAPCookie) (now : Int) : Bool :=
  c.claims.expiresAt ≤ now

/-- `iap.AuthState`: the cookie plus the raw token printed by the `print`
command. -/
structure AuthState where
  cookie : IAPCookie
  rawToken : Str
deriving DecidableEq

/-- The environment of one `handleIAPAuthCookieFor` run: the
`iap.ReadAuthState` and `iap.NewAuth` capabilities (external per spec 2 and
6; `NewAuth` performs the acquisition handshake and is the only operation
that writes the credential store, spec 4.2/4.3) and the current wall-clock
time. -/
structure IAPEnv where
  readAuthState : Str → Except Str AuthState
  newAuth : Str → Bool → Except Str AuthState
  now : Int

/-- Result of a resolution: the returned auth state, or the
`log.Fatal` exit at main.go:208. -/
inductive Outcome where
  | ok (auth : AuthState)
  | fatal (msg : Str)
deriving DecidableEq

/-- The acquisition block duplicated verbatim in both the load-failure and
the expired branch of the switch (main.go:191-194 and 198-201): call
`iap.NewAuth(url, flag)`; on error retry once with `forcebrowserflow:
true`.  The second component of every result below is the trace of
`NewAuth` invocations (their `browserflow` flags, in call order). -/
def escalate (env : IAPEnv) (url : Str) (flag : Bool) : Outcome × List Bool :=
  match env.newAuth url flag with
  | .ok a => (.ok a, [flag])
  | .error _ =>
    match env.newAuth url true with
    | .ok a => (.ok a, [flag, true])
    | .error e2 => (.fatal e2, [flag, true])

/-- The body of `handleIAPAuthCookieFor` after URL normalization
(main.go:187-211): switch on the `ReadAuthState` error / cookie expiry,
then `log.Fatal` if an error is left. -/
def handleCore (env : IAPEnv) (url : Str) (forcebrowserflow : Bool) : Outcome × List Bool :=
  match env.readAuthState url with
  | .error _ => escalate env url forcebrowserflow
  | .ok auth =>
    if auth.cookie.Expired env.now then escalate env url forcebrowserflow
    else (.ok auth, [])

/-- The origin actually used after normalization (main.go:180-183): on a
`toHTTPSBaseDomain` error the code only logs it, and `url` keeps the
returned zero value `""`. -/
def normOf (url : Str) : Str :=
  match toHTTPSBaseDomain url with
  | .ok u => u
  | .error _ => []

/-- `handleIAPAuthCookieFor` (main.go:177), the spec's
`AuthSession.Resolve`. -/
def handleIAPAuthCookieFor (env : IAPEnv) (url : Str) (forcebrowserflow : Bool) :
    Outcome × List Bool :=
  handleCore env (normOf url) forcebrowserflow

/-! ## configureIAP, the cookie-path mapping and installGitProtocol -/

/-- Go `strings.ReplaceAll` for a one-character pattern. -/
def replaceAllChar : Str → Char → Str → Str
  | [], _, _ => []
  | a :: rest, t, r =>
    if a = t then r ++ replaceAllChar rest t r
    else a :: replaceAllChar rest t r

/-- The characters of `"_wildcard_"`. -/
def wildcardMark : Str := ['_', 'w', 'i', 'l', 'd', 'c', 'a', 'r', 'd', '_']

/-- The slug of main.go:171-172: every `.` becomes `-`, then every `*`
becomes `_wildcard_`. -/
def domainSlug (host : Str) : Str :=
  replaceAllChar (replaceAllChar host '.' ['-']) '*' wildcardMark

/-- The characters of `"~/.config/gcp-iap/"`. -/
def cookieDir : Str :=
  ['~', '/', '.', 'c', 'o', 'n', 'f', 'i', 'g', '/', 'g', 'c', 'p', '-', 'i', 'a', 'p', '/']

/-- The characters of `".cookie"`. -/
def cookieTail : Str := ['.', 'c', 'o', 'o', 'k', 'i', 'e']

/-- The cookie-file path of main.go:173:
`~/.config/gcp-iap/<domainSlug>.cookie`. -/
def cookiePathFor (host : Str) : Str := cookieDir ++ domainSlug host ++ cookieTail

/-- Result of `configureIAP` (main.go:143): on a `url.Parse` error the Go
code still evaluates `repo.Host` on the returned nil pointer at
main.go:145, before the error check at main.go:146, which is a nil-pointer
dereference at runtime — modelled as `nilDeref`.  Otherwise the per-host
configuration is written; the record keeps the derived `https://` origin,
whether the wildcard warning branch was taken (main.go:162), and the
cookie-file path. -/
inductive ConfigureOutcome where
  | nilDeref
  | done (https : Str) (wildcardManual : Bool) (cookiePath : Str)
deriving DecidableEq

/-- `configureIAP` (main.go:143-175), reduced to the data it derives from
`repoURL` (the git-config writes themselves are external collaborators). -/
def configureIAP (repoURL : Str) : ConfigureOutcome :=
  match urlParse repoURL with
  | .error _ => .nilDeref
  | .ok repo =>
    .done (httpsBase ++ repo.host) (repo.host.contains '*') (cookiePathFor repo.host)

/-- Go `strings.TrimLeft(s, cutset)`: remove the leading characters that
belong to the cutset (a character SET, not a literal string pattern). -/
def trimLeftCutset : Str → Str → Str
  | [], _ => []
  | a :: rest, cutset =>
    if cutset.contains a then trimLeftCutset rest cutset
    else a :: rest

/-- The characters of the cutset literal `"git-remote-"` of main.go:138. -/
def gitRemoteCutset : Str := ['g', 'i', 't', '-', 'r', 'e', 'm', 'o', 't', 'e', '-']

/-- The protocol name registered by `installGitProtocol` (main.go:137-141):
`strings.TrimLeft(binaryName, "git-remote-")`. -/
def installProtocolName (binaryName : Str) : Str :=
  trimLeftCutset binaryName gitRemoteCutset

/-! ## Concrete inputs and environments used as witnesses -/

instance exceptDecEq {ε α : Type} [DecidableEq ε] [DecidableEq α] : DecidableEq (Except ε α)
  | .ok a, .ok b =>
    if h : a = b then .isTrue (by rw [h]) else .isFalse (by simp [h])
  | .ok _, .error _ => .isFalse (by simp)
  | .error _, .ok _ => .isFalse (by simp)
  | .error e, .error f =>
    if h : e = f then .isTrue (by rw [h]) else .isFalse (by simp [h])

/-- The invariant a host string satisfies after a successful escape-free
parse: re-running `parseHost` on it returns it unchanged, and every ASCII
character in it is valid raw in a host. -/
def hostOK (h : Str) : Prop :=
  parseHost h = Except.ok h ∧ ∀ c ∈ h, c.toNat < 128 → shouldEscapeHost c = false

/-- A sample auth state whose token expires at instant 3600. -/
def authA : AuthState := ⟨⟨⟨3600⟩, ['t']⟩, ['t']⟩

/-- A `ReadAuthState` capability that always fails (no cache file). -/
def readErr1 : Str → Except Str AuthState := fun _ => .error ['r']

/-- A `ReadAuthState` capability that always fails with a different error
(e.g. a corrupted cache file). -/
def readErr2 : Str → Except Str AuthState := fun _ => .error ['c']

/-- A `ReadAuthState` capability that always returns `authA`. -/
def readOkA : Str → Except Str AuthState := fun _ => .ok authA

/-- A `NewAuth` capability that always fails. -/
def acqFail : Str → Bool → Except Str AuthState := fun _ _ => .error ['n']

/-- A `NewAuth` capability that always succeeds with `authA`. -/
def acqOk : Str → Bool → Except Str AuthState := fun _ _ => .ok authA

/-- The characters of `"https://git"`. -/
def gitURL : Str := httpsBase ++ ['g', 'i', 't']

/-- The characters of `":bad"`, which `url.Parse` rejects
(missing protocol scheme). -/
def badURL : Str := [':', 'b', 'a', 'd']

/-- The characters of `"https://a%25b"`. -/
def pctURL : Str := httpsBase ++ ['a', '%', '2', '5', 'b']

/-- The characters of `"https://a%b"` (the normalization of `pctURL`). -/
def pctHost : Str := httpsBase ++ ['a', '%', 'b']

/-- The characters of `"http://exa"`. -/
def plainURL : Str := ['h', 't', 't', 'p', ':', '/', '/', 'e', 'x', 'a']

/-- The characters of `"https://exa"`. -/
def plainOrigin : Str := httpsBase ++ ['e', 'x', 'a']

/-- The characters of `"http://a.b/c?q#f"`. -/
def fullURL : Str :=
  ['h', 't', 't', 'p', ':', '/', '/', 'a', '.', 'b', '/', 'c', '?', 'q', '#', 'f']

/-- The `URLModel` that `urlParse` yields on `fullURL`. -/
def fullParsed : URLModel :=
  ⟨['h', 't', 't', 'p'], [], ['a', '.', 'b'], ['/', 'c'], false, false, ['q'], ['f']⟩

/-- The characters of the wildcard host `"*.example.com"`. -/
def wildcardHost : Str := ['*', '.', 'e', 'x', 'a', 'm', 'p', 'l', 'e', '.', 'c', 'o', 'm']

/-- The characters of the literal subdomain `"sub.example.com"`. -/
def subHost : Str := ['s', 'u', 'b', '.', 'e', 'x', 'a', 'm', 'p', 'l', 'e', '.', 'c', 'o', 'm']

/-- The characters of the binary name `"git-remote-iap"`. -/
def gitRemoteIapName : Str :=
  ['g', 'i', 't', '-', 'r', 'e', 'm', 'o', 't', 'e', '-', 'i', 'a', 'p']

/-! ## Helper lemmas -/

theorem shouldEscapeHost_of_ctl {c : Char} (h : isCTL c = true) : shouldEscapeHost c = true := by
  simp [isCTL] at h
  simp only [shouldEscapeHost]
  split_ifs with h1 h2 h3 <;> first | rfl | omega

theorem toNat_lt_of_ctl {c : Char} (h : isCTL c = true) : c.toNat < 128 := by
  simp [isCTL] at h
  omega

theorem splitChar_of_not_mem {l : Str} {c : Char} {b : Bool} (h : c ∉ l) :
    splitChar l c b = (l, []) := by
  induction l with
  | nil => rfl
  | cons a rest ih =>
    have ha : ¬ a = c := fun hac => h (hac ▸ List.mem_cons_self a rest)
    have hr : c ∉ rest := fun hm => h (List.mem_cons_of_mem a hm)
    simp [splitChar, ha, ih hr]

theorem mem_of_mem_splitChar_fst {l : Str} {c : Char} {b : Bool} {x : Char}
    (h : x ∈ (splitChar l c b).1) : x ∈ l := by
  induction l with
  | nil => simp [splitChar] at h
  | cons a rest ih =>
    by_cases hac : a = c
    · simp [splitChar, hac] at h
    · simp [splitChar, hac] at h
      rcases h with h | h
      · simp [h]
      · exact List.mem_cons_of_mem a (ih h)

theorem mem_of_mem_splitChar_snd {l : Str} {c : Char} {b : Bool} {x : Char}
    (h : x ∈ (splitChar l c b).2) : x ∈ l := by
  induction l with
  | nil => simp [splitChar] at h
  | cons a rest ih =>
    by_cases hac : a = c
    · cases b with
      | true =>
        simp [splitChar, hac] at h
        exact List.mem_cons_of_mem a h
      | false =>
        simp [splitChar, hac] at h
        rcases h with h | h
        · rw [h, ← hac]; exact List.mem_cons_self a rest
        · exact List.mem_cons_of_mem a h
    · simp [splitChar, hac] at h
      exact List.mem_cons_of_mem a (ih h)

theorem lastIndexOfChar_eq_none {l : Str} {c : Char} (h : c ∉ l) :
    lastIndexOfChar l c = none := by
  induction l with
  | nil => rfl
  | cons a rest ih =>
    have ha : ¬ a = c := fun hac => h (hac ▸ List.mem_cons_self a rest)
    have hr : c ∉ rest := fun hm => h (List.mem_cons_of_mem a hm)
    simp [lastIndexOfChar, ih hr, ha]

theorem not_mem_of_lastIndexOfChar_none {l : Str} {c : Char}
    (h : lastIndexOfChar l c = none) : c ∉ l := by
  induction l with
  | nil => simp
  | cons a rest ih =>
    simp only [lastIndexOfChar] at h
    cases hr : lastIndexOfChar rest c with
    | some i => rw [hr] at h; exact absurd h (by simp)
    | none =>
      rw [hr] at h
      by_cases hac : a = c
      · rw [if_pos hac] at h; exact absurd h (by simp)
      · intro hm
        rcases List.mem_cons.mp hm with hm | hm
        · exact hac hm.symm
        · exact ih hr hm

theorem not_mem_drop_of_lastIndexOfChar {l : Str} {c : Char} {i : Nat}
    (h : lastIndexOfChar l c = some i) : c ∉ l.drop (i + 1) := by
  induction l generalizing i with
  | nil => simp [lastIndexOfChar] at h
  | cons a rest ih =>
    simp only [lastIndexOfChar] at h
    cases hr : lastIndexOfChar rest c with
    | some j =>
      rw [hr] at h
      have hij : i = j + 1 := by
        have := Option.some.inj h
        omega
      subst hij
      simpa using ih hr
    | none =>
      rw [hr] at h
      by_cases hac : a = c
      · rw [if_pos hac] at h
        have hi0 : i = 0 := (Option.some.inj h).symm
        subst hi0
        simpa using not_mem_of_lastIndexOfChar_none hr
      · rw [if_neg hac] at h
        exact absurd h (by simp)

theorem indexOfSub_eq_none {p : Char} {ps l : Str} (h : p ∉ l) :
    indexOfSub (p :: ps) l = none := by
  induction l with
  | nil => simp [indexOfSub, List.isPrefixOf]
  | cons a rest ih =>
    have ha : ¬ p = a := fun hpa => h (hpa ▸ List.mem_cons_self a rest)
    have hr : p ∉ rest := fun hm => h (List.mem_cons_of_mem a hm)
    have hpre : (p :: ps).isPrefixOf (a :: rest) = false := by
      simp [List.isPrefixOf]
      intro hpa
      exact absurd hpa ha
    simp [indexOfSub, hpre, ih hr]

theorem mem_of_getLastQ {l : Str} {a : Char} (h : l.getLast? = some a) : a ∈ l := by
  induction l with
  | nil => simp at h
  | cons x rest ih =>
    cases rest with
    | nil =>
      simp at h
      simp [h]
    | cons y ys =>
      rw [List.getLast?_cons_cons] at h
      exact List.mem_cons_of_mem x (ih h)


theorem unescape_cons_not_percent {a : Char} {rest : Str} {mode : Encoding} (ha : ¬ a = '%') :
    unescape (a :: rest) mode =
      if (mode = .host ∨ mode = .zone) ∧ a.toNat < 128 ∧ shouldEscapeHost a then
        .error (.invalidHostChar a)
      else
        match unescape rest mode with
        | .ok t => .ok (a :: t)
        | .error e => .error e := by
  cases rest with
  | nil => simp [unescape, ha]
  | cons b rest1 =>
    cases rest1 with
    | nil => simp [unescape, ha]
    | cons c rest2 => simp [unescape, ha]

theorem unescape_ok_of_no_percent {l : Str} {m : Encoding} {t : Str}
    (hp : '%' ∉ l) (h : unescape l m = .ok t) : t = l := by
  induction l generalizing t with
  | nil => simpa [unescape] using h.symm
  | cons a rest ih =>
    have ha : ¬ a = '%' := fun hac => hp (hac ▸ List.mem_cons_self a rest)
    have hr : '%' ∉ rest := fun hm => hp (List.mem_cons_of_mem a hm)
    rw [unescape_cons_not_percent ha] at h
    split_ifs at h
    cases heq : unescape rest m with
    | ok t2 =>
      rw [heq] at h
      have := Except.ok.inj h
      rw [← this, ih hr heq]
    | error e => rw [heq] at h; exact absurd h (by simp)

theorem unescape_host_chars {l : Str} {t : Str}
    (hp : '%' ∉ l) (h : unescape l .host = .ok t) :
    ∀ c ∈ l, c.toNat < 128 → shouldEscapeHost c = false := by
  induction l generalizing t with
  | nil => simp
  | cons a rest ih =>
    have ha : ¬ a = '%' := fun hac => hp (hac ▸ List.mem_cons_self a rest)
    have hr : '%' ∉ rest := fun hm => hp (List.mem_cons_of_mem a hm)
    rw [unescape_cons_not_percent ha] at h
    intro c hc hlt
    by_cases hcond : (Encoding.host = Encoding.host ∨ Encoding.host = Encoding.zone) ∧
        a.toNat < 128 ∧ shouldEscapeHost a = true
    · rw [if_pos hcond] at h
      exact absurd h (by simp)
    · rw [if_neg hcond] at h
      rcases List.mem_cons.mp hc with hc | hc
      · subst hc
        by_cases hesc : shouldEscapeHost c = true
        · exact absurd ⟨Or.inl rfl, hlt, hesc⟩ hcond
        · simpa using hesc
      · cases heq : unescape rest .host with
        | ok t2 => exact ih hr heq c hc hlt
        | error e => rw [heq] at h; exact absurd h (by simp)


theorem hostOK_nil : hostOK [] := ⟨rfl, by simp⟩

theorem parseHost_ok_of_no_percent {h h1 : Str}
    (hp : '%' ∉ h) (hh : parseHost h = .ok h1) :
    h1 = h ∧ unescape h .host = .ok h := by
  have key : unescape h .host = .ok h1 := by
    rw [parseHost] at hh
    split_ifs at hh with hb
    · cases hli : lastIndexOfChar h ']' with
      | none => simp only [hli] at hh; exact absurd hh (by simp)
      | some i =>
        simp only [hli] at hh
        split_ifs at hh
        have hzn : indexOfSub ['%', '2', '5'] (h.take i) = none :=
          indexOfSub_eq_none (fun hm => hp (List.take_subset i h hm))
        rwa [hzn] at hh
    · cases hli : lastIndexOfChar h ':' with
      | none => simpa only [hli] using hh
      | some i =>
        simp only [hli] at hh
        split_ifs at hh
        exact hh
  have he : h1 = h := unescape_ok_of_no_percent hp key
  exact ⟨he, he ▸ key⟩

theorem hostOK_of_no_percent {h h1 : Str}
    (hp : '%' ∉ h) (hh : parseHost h = .ok h1) : hostOK h1 ∧ '%' ∉ h1 := by
  obtain ⟨he, hu⟩ := parseHost_ok_of_no_percent hp hh
  subst he
  exact ⟨⟨hh, unescape_host_chars hp hu⟩, hp⟩

theorem parseAuthority_ok {a : Str} {b : Bool} {h : Str}
    (hp : '%' ∉ a) (hh : parseAuthority a = .ok (b, h)) : hostOK h ∧ '%' ∉ h := by
  rw [parseAuthority] at hh
  cases hli : lastIndexOfChar a '@' with
  | none =>
    simp only [hli] at hh
    cases hph : parseHost a with
    | error e => simp only [hph] at hh; exact absurd hh (by simp)
    | ok h0 =>
      simp only [hph] at hh
      have : h0 = h := congrArg Prod.snd (Except.ok.inj hh)
      subst this
      exact hostOK_of_no_percent hp hph
  | some i =>
    simp only [hli] at hh
    have hpd : '%' ∉ a.drop (i + 1) := fun hm => hp (List.drop_subset (i + 1) a hm)
    cases hph : parseHost (a.drop (i + 1)) with
    | error e => simp only [hph] at hh; exact absurd hh (by simp)
    | ok h0 =>
      simp only [hph] at hh
      have hh0 : h0 = h := by
        split_ifs at hh
        · cases hu1 : unescape (splitChar (a.take i) ':' true).1 .userPassword with
          | error e => simp only [hu1] at hh; exact absurd hh (by simp)
          | ok t =>
            simp only [hu1] at hh
            cases hu2 : unescape (splitChar (a.take i) ':' true).2 .userPassword with
            | error e => simp only [hu2] at hh; exact absurd hh (by simp)
            | ok t2 =>
              simp only [hu2] at hh
              exact congrArg Prod.snd (Except.ok.inj hh)
        · cases hu1 : unescape (a.take i) .userPassword with
          | error e => simp only [hu1] at hh; exact absurd hh (by simp)
          | ok t =>
            simp only [hu1] at hh
            exact congrArg Prod.snd (Except.ok.inj hh)
      subst hh0
      exact hostOK_of_no_percent hpd hph

theorem getSchemeAux_ok_sub {acc l s r : Str} (h : getSchemeAux acc l = .ok (s, r)) :
    ∀ x ∈ r, x ∈ acc.reverse ++ l := by
  induction l generalizing acc with
  | nil =>
    simp only [getSchemeAux, Except.ok.injEq, Prod.mk.injEq] at h
    rw [← h.2]
    intro x hx
    exact List.mem_append_left _ hx
  | cons c cs ih =>
    rw [getSchemeAux] at h
    split_ifs at h with h1 h2 h3 h4 h5
    · intro x hx
      have := ih h x hx
      simpa using this
    · simp only [Except.ok.injEq, Prod.mk.injEq] at h
      rw [← h.2]
      intro x hx
      exact List.mem_append_right _ hx
    · intro x hx
      have := ih h x hx
      simpa using this
    · simp only [Except.ok.injEq, Prod.mk.injEq] at h
      rw [← h.2]
      intro x hx
      exact List.mem_append_right _ (List.mem_cons_of_mem c hx)
    · simp only [Except.ok.injEq, Prod.mk.injEq] at h
      rw [← h.2]
      intro x hx
      exact hx

theorem setPathFinish_ok_host {scheme : Str} {fq : Bool} {rq host : Str} {hu : Bool} {p : Str}
    {u : URLModel} (h : setPathFinish scheme fq rq host hu p = .ok u) : u.host = host := by
  rw [setPathFinish] at h
  cases he : unescape p .path with
  | error e => simp only [he] at h; exact absurd h (by simp)
  | ok pth =>
    simp only [he] at h
    rw [← Except.ok.inj h]

theorem parseAfterQuery_ok_host {scheme : Str} {fq : Bool} {rq rest1 : Str} {u : URLModel}
    (hp : '%' ∉ rest1) (h : parseAfterQuery scheme fq rq rest1 = .ok u) :
    hostOK u.host ∧ '%' ∉ u.host := by
  rw [parseAfterQuery] at h
  split_ifs at h with h1 h2 h3 h4
  · cases hpa : parseAuthority (splitChar (rest1.drop 2) '/' false).1 with
    | error e => simp only [hpa] at h; exact absurd h (by simp)
    | ok hu =>
      simp only [hpa] at h
      have hph : '%' ∉ (splitChar (rest1.drop 2) '/' false).1 := fun hm =>
        hp (List.drop_subset 2 rest1 (mem_of_mem_splitChar_fst hm))
      have := parseAuthority_ok hph (by rw [hpa])
      rw [setPathFinish_ok_host h]
      exact this
  · rw [setPathFinish_ok_host h]
    exact ⟨hostOK_nil, by simp⟩
  · rw [← Except.ok.inj h]
    exact ⟨hostOK_nil, by simp⟩
  · rw [setPathFinish_ok_host h]
    exact ⟨hostOK_nil, by simp⟩

theorem parseGo_ok_host {r : Str} {u : URLModel}
    (hp : '%' ∉ r) (h : parseGo r = .ok u) : hostOK u.host ∧ '%' ∉ u.host := by
  rw [parseGo] at h
  split_ifs at h with h1 h2
  · rw [← Except.ok.inj h]
    exact ⟨hostOK_nil, by simp⟩
  · cases hs : getScheme r with
    | error e => simp only [hs] at h; exact absurd h (by simp)
    | ok sr =>
      simp only [hs] at h
      have hsub : ∀ x ∈ sr.2, x ∈ r := by
        intro x hx
        have := getSchemeAux_ok_sub (by rw [← hs]; rfl : getSchemeAux [] r = .ok (sr.1, sr.2)) x hx
        simpa using this
      split_ifs at h with hq
      · have hp2 : '%' ∉ sr.2.dropLast := fun hm =>
          hp (hsub _ (List.dropLast_subset _ hm))
        exact parseAfterQuery_ok_host hp2 h
      · have hp2 : '%' ∉ (splitChar sr.2 '?' true).1 := fun hm =>
          hp (hsub _ (mem_of_mem_splitChar_fst hm))
        exact parseAfterQuery_ok_host hp2 h

theorem urlParse_ok_host {O : Str} {u : URLModel}
    (hp : '%' ∉ O) (h : urlParse O = .ok u) : hostOK u.host ∧ '%' ∉ u.host := by
  rw [urlParse] at h
  have hp1 : '%' ∉ (splitChar O '#' true).1 := fun hm => hp (mem_of_mem_splitChar_fst hm)
  cases hg : parseGo (splitChar O '#' true).1 with
  | error e => simp only [hg] at h; exact absurd h (by simp)
  | ok u0 =>
    simp only [hg] at h
    have h0 := parseGo_ok_host hp1 hg
    split_ifs at h
    · rw [← Except.ok.inj h]
      exact h0
    · cases hf : unescape (splitChar O '#' true).2 .fragment with
      | error e => simp only [hf] at h; exact absurd h (by simp)
      | ok f =>
        simp only [hf] at h
        have : u.host = u0.host := by rw [← Except.ok.inj h]
        rw [this]
        exact h0

theorem getScheme_https (h : Str) :
    getScheme (httpsBase ++ h) = .ok (['h', 't', 't', 'p', 's'], '/' :: '/' :: h) := rfl

theorem parseGo_https {h : Str} (hOK : hostOK h) :
    parseGo (httpsBase ++ h) =
      .ok ⟨['h', 't', 't', 'p', 's'], [], h, [], false, false, [], []⟩ := by
  have hnot : ∀ x : Char, x.toNat < 128 → shouldEscapeHost x = true → x ∉ h := by
    intro x hlt hesc hmem
    have := hOK.2 x hmem hlt
    rw [this] at hesc
    exact Bool.false_ne_true hesc
  have hctl : containsCTL (httpsBase ++ h) = false := by
    rw [containsCTL, List.any_append]
    have h1 : httpsBase.any isCTL = false := by decide
    have h2 : h.any isCTL = false := by
      rw [List.any_eq_false]
      intro x hx hctlx
      exact hnot x (toNat_lt_of_ctl hctlx) (shouldEscapeHost_of_ctl hctlx) hx
    rw [h1, h2]
    rfl
  have hstar : ¬ (httpsBase ++ h = ['*']) := by
    intro he
    have h0 : ('h' : Char) = '*' ∧ ['t', 't', 'p', 's', ':', '/', '/'] ++ h = [] := by
      rwa [show httpsBase ++ h = 'h' :: (['t', 't', 'p', 's', ':', '/', '/'] ++ h) from rfl,
        List.cons.injEq] at he
    exact absurd h0.1 (by decide)
  have hqmem : '?' ∉ ('/' :: '/' :: h) := by
    intro hm
    simp only [List.mem_cons] at hm
    rcases hm with hm | hm | hm
    · exact absurd hm (by decide)
    · exact absurd hm (by decide)
    · exact hnot '?' (by decide) (by decide) hm
  rw [parseGo, if_neg (by rw [hctl]; exact Bool.false_ne_true), if_neg hstar]
  simp only [getScheme_https]
  rw [if_neg (fun hcond => hqmem (mem_of_getLastQ hcond.1))]
  simp only [splitChar_of_not_mem hqmem]
  have hlow : lowerStr ['h', 't', 't', 'p', 's'] = ['h', 't', 't', 'p', 's'] := by decide
  rw [hlow, parseAfterQuery,
    if_pos (show ('/' :: '/' :: h).head? = some '/' from rfl)]
  have hcond2 : ((decide ((['h', 't', 't', 'p', 's'] : Str) ≠ []) ||
      !(['/', '/', '/'].isPrefixOf ('/' :: '/' :: h))) &&
      (['/', '/'].isPrefixOf ('/' :: '/' :: h))) = true := by
    have hpre : (['/', '/'] : Str).isPrefixOf ('/' :: '/' :: h) = true := by
      simp [List.isPrefixOf]
    rw [hpre]
    simp
  rw [if_pos hcond2]
  have hdrop : ('/' :: '/' :: h).drop 2 = h := rfl
  rw [hdrop]
  have hslashmem : '/' ∉ h := fun hm => hnot '/' (by decide) (by decide) hm
  simp only [splitChar_of_not_mem hslashmem]
  have hat : '@' ∉ h := fun hm => hnot '@' (by decide) (by decide) hm
  have hpa : parseAuthority h = .ok (false, h) := by
    rw [parseAuthority]
    simp only [lastIndexOfChar_eq_none hat, hOK.1]
  simp only [hpa]
  rfl

theorem urlParse_https {h : Str} (hOK : hostOK h) :
    urlParse (httpsBase ++ h) =
      .ok ⟨['h', 't', 't', 'p', 's'], [], h, [], false, false, [], []⟩ := by
  have hnot : ∀ x : Char, x.toNat < 128 → shouldEscapeHost x = true → x ∉ h := by
    intro x hlt hesc hmem
    have := hOK.2 x hmem hlt
    rw [this] at hesc
    exact Bool.false_ne_true hesc
  have hhash : '#' ∉ httpsBase ++ h := by
    intro hm
    rcases List.mem_append.mp hm with hm | hm
    · exact absurd hm (by decide)
    · exact hnot '#' (by decide) (by decide) hm
  rw [urlParse]
  simp only [splitChar_of_not_mem hhash, parseGo_https hOK]
  simp

theorem replaceAllChar_of_not_mem {l : Str} {t : Char} {r : Str} (h : t ∉ l) :
    replaceAllChar l t r = l := by
  induction l with
  | nil => rfl
  | cons a rest ih =>
    have ha : ¬ a = t := fun hat => h (hat ▸ List.mem_cons_self a rest)
    have hr : t ∉ rest := fun hm => h (List.mem_cons_of_mem a hm)
    simp [replaceAllChar, ha, ih hr]

theorem mem_replaceAllChar {l : Str} {t : Char} {r : Str} {x : Char}
    (h : x ∈ replaceAllChar l t r) : x ∈ r ∨ (x ∈ l ∧ x ≠ t) := by
  induction l with
  | nil => simp [replaceAllChar] at h
  | cons a rest ih =>
    by_cases hat : a = t
    · rw [replaceAllChar, if_pos hat] at h
      rcases List.mem_append.mp h with h | h
      · exact Or.inl h
      · rcases ih h with h | h
        · exact Or.inl h
        · exact Or.inr ⟨List.mem_cons_of_mem a h.1, h.2⟩
    · rw [replaceAllChar, if_neg hat] at h
      rcases List.mem_cons.mp h with h | h
      · subst h
        exact Or.inr ⟨List.mem_cons_self x rest, hat⟩
      · rcases ih h with h | h
        · exact Or.inl h
        · exact Or.inr ⟨List.mem_cons_of_mem a h.1, h.2⟩

/-! ## The claims -/

/-- C1, counterexample to the claim as stated.  The claim says the
escalation retry happens only if the failed attempt had `interactive=false`.
In the code (main.go:192-194) the retry is guarded only by `err != nil`:
with `forcebrowserflow=true`, a failed first (already interactive) attempt
is still followed by a second attempt, so the acquisition trace is
`[true, true]` — a retry after an interactive failure. -/
theorem c1_counterexample :
    (handleIAPAuthCookieFor ⟨readErr1, acqFail, 0⟩ gitURL true).2 = [true, true] := by
  decide

/-- C1, amended: whenever the FIRST acquisition attempt fails — whatever
its interactivity flag — `Resolve` makes exactly one further attempt, with
`interactive=true`, and stops (the trace is `[flag, true]`, never a third
attempt); if that second attempt succeeds its auth state is returned, and
if it also fails the resolution fails fatally with that error. -/
theorem c1_theorem (env : IAPEnv) (url : Str) (flag : Bool) (e eA : Str)
    (hneed : env.readAuthState (normOf url) = .error e ∨
      ∃ a, env.readAuthState (normOf url) = .ok a ∧ a.cookie.Expired env.now = true)
    (hfail : env.newAuth (normOf url) flag = .error eA) :
    handleIAPAuthCookieFor env url flag =
      match env.newAuth (normOf url) true with
      | .ok a => (.ok a, [flag, true])
      | .error e2 => (.fatal e2, [flag, true]) := by
  rw [handleIAPAuthCookieFor, handleCore]
  rcases hneed with hr | ⟨a, hr, hexp⟩
  · simp only [hr]
    rw [escalate]
    simp only [hfail]
  · simp only [hr]
    rw [if_pos hexp, escalate]
    simp only [hfail]

/-- C1, witness for the amended theorem at a concrete environment:
no cache, every acquisition fails, `forcebrowserflow=false`. -/
theorem c1_theorem_witness :
    ((⟨readErr1, acqFail, 0⟩ : IAPEnv).readAuthState (normOf gitURL) = .error ['r'] ∨
      ∃ a, (⟨readErr1, acqFail, 0⟩ : IAPEnv).readAuthState (normOf gitURL) = .ok a ∧
        a.cookie.Expired (0 : Int) = true) ∧
    (⟨readErr1, acqFail, 0⟩ : IAPEnv).newAuth (normOf gitURL) false = .error ['n'] ∧
    handleIAPAuthCookieFor ⟨readErr1, acqFail, 0⟩ gitURL false =
      match (⟨readErr1, acqFail, 0⟩ : IAPEnv).newAuth (normOf gitURL) true with
      | .ok a => (.ok a, [false, true])
      | .error e2 => (.fatal e2, [false, true]) :=
  ⟨Or.inl rfl, rfl,
    c1_theorem ⟨readErr1, acqFail, 0⟩ gitURL false ['r'] ['n'] (Or.inl rfl) rfl⟩

/-- C2, confirmed: when the cached credential for the normalized origin
loads and its `expiresAt` lies strictly in the future, `Resolve` returns
the cached auth state with an empty acquisition trace — `NewAuth` (the only
operation that writes the credential store) is never invoked. -/
theorem c2_theorem (env : IAPEnv) (url : Str) (flag : Bool) (a : AuthState)
    (hread : env.readAuthState (normOf url) = .ok a)
    (hfut : env.now < a.cookie.claims.expiresAt) :
    handleIAPAuthCookieFor env url flag = (.ok a, []) := by
  rw [handleIAPAuthCookieFor, handleCore]
  simp only [hread]
  have hexp : a.cookie.Expired env.now = false := by
    simp only [IAPCookie.Expired]
    rw [decide_eq_false]
    omega
  rw [if_neg (by rw [hexp]; exact Bool.false_ne_true)]

/-- C2, witness: a cached credential expiring at 3600 with the clock at 0
is returned as-is with zero acquisition calls. -/
theorem c2_theorem_witness :
    (⟨readOkA, acqFail, 0⟩ : IAPEnv).readAuthState (normOf gitURL) = .ok authA ∧
    (⟨readOkA, acqFail, 0⟩ : IAPEnv).now < authA.cookie.claims.expiresAt ∧
    handleIAPAuthCookieFor ⟨readOkA, acqFail, 0⟩ gitURL false = (.ok authA, []) :=
  ⟨rfl, by decide, c2_theorem ⟨readOkA, acqFail, 0⟩ gitURL false authA rfl (by decide)⟩

/-- C3, confirmed: two `Resolve` runs that differ only in WHY the cache
load failed (any two errors: absent, unreadable or undecodable file) are
identical; the first acquisition attempt carries the caller's flag; and any
fatal outcome is the error of the escalated `NewAuth(url, true)` call, never
the cache-load error itself. -/
theorem c3_theorem (r1 r2 : Str → Except Str AuthState) (na : Str → Bool → Except Str AuthState)
    (now : Int) (url : Str) (flag : Bool) (e1 e2 : Str)
    (h1 : r1 (normOf url) = .error e1) (h2 : r2 (normOf url) = .error e2) :
    handleIAPAuthCookieFor ⟨r1, na, now⟩ url flag =
      handleIAPAuthCookieFor ⟨r2, na, now⟩ url flag ∧
    (handleIAPAuthCookieFor ⟨r1, na, now⟩ url flag).2.head? = some flag ∧
    (∀ m, (handleIAPAuthCookieFor ⟨r1, na, now⟩ url flag).1 = .fatal m →
      na (normOf url) true = .error m) := by
  simp only [handleIAPAuthCookieFor, handleCore, h1, h2, escalate]
  cases hn1 : na (normOf url) flag with
  | ok a => simp
  | error eX =>
    cases hn2 : na (normOf url) true with
    | ok a => simp
    | error eY =>
      simp only [hn1, hn2]
      refine ⟨trivial, rfl, fun m hm => ?_⟩
      rw [← Outcome.fatal.inj hm]

/-- C3, witness: two environments failing the cache load with different
errors behave identically at a concrete origin. -/
theorem c3_theorem_witness :
    readErr1 (normOf gitURL) = .error ['r'] ∧ readErr2 (normOf gitURL) = .error ['c'] ∧
    (handleIAPAuthCookieFor ⟨readErr1, acqFail, 0⟩ gitURL false =
       handleIAPAuthCookieFor ⟨readErr2, acqFail, 0⟩ gitURL false ∧
     (handleIAPAuthCookieFor ⟨readErr1, acqFail, 0⟩ gitURL false).2.head? = some false ∧
     (∀ m, (handleIAPAuthCookieFor ⟨readErr1, acqFail, 0⟩ gitURL false).1 = .fatal m →
       acqFail (normOf gitURL) true = .error m)) :=
  ⟨rfl, rfl, c3_theorem readErr1 readErr2 acqFail 0 gitURL false ['r'] ['c'] rfl rfl⟩

/-- C4, confirmed: a `Resolve` call with `forcebrowserflow=true` never
invokes `NewAuth` with `interactive=false` — the flag `false` never occurs
in the acquisition trace, for any environment and any input URL. -/
theorem c4_theorem (env : IAPEnv) (url : Str) :
    false ∉ (handleIAPAuthCookieFor env url true).2 := by
  rw [handleIAPAuthCookieFor, handleCore]
  cases hr : env.readAuthState (normOf url) with
  | error e =>
    show false ∉ (escalate env (normOf url) true).2
    rw [escalate]
    cases env.newAuth (normOf url) true with
    | ok a => simp
    | error eX => simp
  | ok a =>
    show false ∉ (if a.cookie.Expired env.now = true then escalate env (normOf url) true
      else ((Outcome.ok a), [])).2
    by_cases hexp : a.cookie.Expired env.now = true
    · rw [if_pos hexp, escalate]
      cases env.newAuth (normOf url) true with
      | ok a2 => simp
      | error eX => simp
    · rw [if_neg hexp]
      simp

/-- C5, counterexample to the claim as stated.  The claim says a malformed
URL is fatal and no cache lookup or acquisition is attempted.  In the code
(main.go:180-183) the `toHTTPSBaseDomain` error is only logged at error
level: on the unparseable input `":bad"` the resolution continues (with the
empty origin), acquisition IS attempted (trace `[false]`) and the run even
succeeds when acquisition does. -/
theorem c5_counterexample :
    toHTTPSBaseDomain badURL = .error .missingScheme ∧
    handleIAPAuthCookieFor ⟨readErr1, acqOk, 0⟩ badURL false = (.ok authA, [false]) := by
  decide

/-- C5, amended: when the input cannot be parsed as a URL, normalization
fails, but `Resolve` does not stop: it logs and continues with the zero
value `""` as origin, so the rest of the run is exactly `handleCore` on the
empty origin — cache lookup and acquisition still happen, and the run is
fatal only if acquisition later fails. -/
theorem c5_theorem (env : IAPEnv) (url : Str) (flag : Bool) (e : UErr)
    (h : toHTTPSBaseDomain url = .error e) :
    handleIAPAuthCookieFor env url flag = handleCore env [] flag := by
  simp only [handleIAPAuthCookieFor, normOf, h]

/-- C5, witness for the amended theorem at the concrete malformed input
`":bad"`. -/
theorem c5_theorem_witness :
    toHTTPSBaseDomain badURL = .error .missingScheme ∧
    handleIAPAuthCookieFor ⟨readErr1, acqFail, 0⟩ badURL true =
      handleCore ⟨readErr1, acqFail, 0⟩ [] true :=
  ⟨by decide, c5_theorem ⟨readErr1, acqFail, 0⟩ badURL true .missingScheme (by decide)⟩

/-- C6, counterexample to idempotence as stated.  `url.Parse`
percent-decodes the host, so normalization succeeds on
`"https://a%25b"` with output `"https://a%b"`, and normalizing that output
fails ('%' followed by a non-escape is rejected): normalize∘normalize and
normalize differ at this origin. -/
theorem c6_counterexample :
    toHTTPSBaseDomain pctURL = .ok pctHost ∧
    toHTTPSBaseDomain pctHost = .error (.escapeError ['%', 'b']) := by
  decide

/-- C6, amended: normalization is idempotent on every origin that contains
no percent-escape: if `'%'` does not occur in the input and normalization
succeeds, normalizing the output returns the output unchanged. -/
theorem c6_theorem (origin s : Str) (hp : '%' ∉ origin)
    (h : toHTTPSBaseDomain origin = .ok s) : toHTTPSBaseDomain s = .ok s := by
  rw [toHTTPSBaseDomain] at h
  cases hu : urlParse origin with
  | error e => simp only [hu] at h; exact absurd h (by simp)
  | ok u =>
    simp only [hu] at h
    have hs : s = httpsBase ++ u.host := (Except.ok.inj h).symm
    obtain ⟨hOK, hpu⟩ := urlParse_ok_host hp hu
    subst hs
    rw [toHTTPSBaseDomain]
    simp only [urlParse_https hOK]

/-- C6, witness for the amended theorem at `"http://exa"`, whose
normalization `"https://exa"` re-normalizes to itself. -/
theorem c6_theorem_witness :
    ('%' ∉ plainURL) ∧ toHTTPSBaseDomain plainURL = .ok plainOrigin ∧
    toHTTPSBaseDomain plainOrigin = .ok plainOrigin :=
  ⟨by decide, by decide, c6_theorem plainURL plainOrigin (by decide) (by decide)⟩

/-- C7, confirmed: whenever the input parses, `toHTTPSBaseDomain` returns
exactly `"https://"` followed by the parsed URL's host (which carries the
port only when the host component does), discarding scheme, path, query
and fragment — and the result depends on nothing but the host (so two
inputs parsing to the same host normalize identically; as a Lean function
it is deterministic and side-effect-free by construction). -/
theorem c7_theorem (addr : Str) (u : URLModel) (h : urlParse addr = .ok u) :
    toHTTPSBaseDomain addr = .ok (httpsBase ++ u.host) ∧
    (∀ addr2 u2, urlParse addr2 = .ok u2 → u2.host = u.host →
      toHTTPSBaseDomain addr2 = toHTTPSBaseDomain addr) := by
  constructor
  · rw [toHTTPSBaseDomain]
    simp only [h]
  · intro addr2 u2 h2 hh
    rw [toHTTPSBaseDomain, toHTTPSBaseDomain]
    simp only [h, h2, hh]

/-- C7, witness at `"http://a.b/c?q#f"`: scheme, path, query and fragment
are discarded and `"https://a.b"` is returned. -/
theorem c7_theorem_witness :
    urlParse fullURL = .ok fullParsed ∧
    (toHTTPSBaseDomain fullURL = .ok (httpsBase ++ fullParsed.host) ∧
     (∀ addr2 u2, urlParse addr2 = .ok u2 → u2.host = fullParsed.host →
       toHTTPSBaseDomain addr2 = toHTTPSBaseDomain fullURL)) :=
  ⟨by decide, c7_theorem fullURL fullParsed (by decide)⟩

/-- C8, counterexample to collision resistance as stated: the distinct
hosts `"a.b"` and `"a-b"` map to the same cookie path, because replacing
every `.` by `-` conflates them. -/
theorem c8_counterexample :
    cookiePathFor ['a', '.', 'b'] = cookiePathFor ['a', '-', 'b'] ∧
    (['a', '.', 'b'] : Str) ≠ ['a', '-', 'b'] := by
  decide

/-- C8, amended: the path mapping is deterministic (a pure function of the
host) but not collision-resistant in general (see the counterexample);
what does hold is the spec's wildcard scenario: the wildcard origin host
`"*.example.com"` maps to a path distinct from that of every literal host
containing neither `'_'` nor `'*'` — in particular from every ordinary
literal subdomain's path. -/
theorem c8_theorem (h : Str) (h1 : '_' ∉ h) (h2 : '*' ∉ h) :
    cookiePathFor h ≠ cookiePathFor wildcardHost := by
  intro heq
  rw [cookiePathFor, cookiePathFor] at heq
  have hslug : domainSlug h = domainSlug wildcardHost :=
    List.append_cancel_left (List.append_cancel_right heq)
  have hu1 : '_' ∉ domainSlug h := by
    rw [domainSlug]
    have hstep : '*' ∉ replaceAllChar h '.' ['-'] := by
      intro hm
      rcases mem_replaceAllChar hm with hm | hm
      · exact absurd hm (by decide)
      · exact h2 hm.1
    rw [replaceAllChar_of_not_mem hstep]
    intro hm
    rcases mem_replaceAllChar hm with hm | hm
    · exact absurd hm (by decide)
    · exact h1 hm.1
  have hu2 : '_' ∈ domainSlug wildcardHost := by decide
  rw [hslug] at hu1
  exact hu1 hu2

/-- C8, witness: the literal subdomain `"sub.example.com"` maps to a path
distinct from the wildcard origin's path. -/
theorem c8_theorem_witness :
    ('_' ∉ subHost) ∧ ('*' ∉ subHost) ∧
    cookiePathFor subHost ≠ cookiePathFor wildcardHost :=
  ⟨by decide, by decide, c8_theorem subHost (by decide) (by decide)⟩

/-- C9, confirmed: `configureIAP` evaluates `repo.Host` (main.go:145)
before checking the `url.Parse` error (main.go:146), so an unparseable
`--repoURL` such as `":bad"` — on which `url.Parse` returns a nil pointer
with an error — makes the operation dereference the nil pointer
(`nilDeref` in the model); the subsequent error branch can never run
first. -/
theorem c9_theorem :
    urlParse badURL = .error .missingScheme ∧ configureIAP badURL = .nilDeref := by
  decide

/-- C10, confirmed: `strings.TrimLeft(binaryName, "git-remote-")` treats
`"git-remote-"` as a character SET `{g,i,t,-,r,e,m,o}` and removes every
leading character in it, so it is `dropWhile (· ∈ cutset)`, not literal
prefix removal; on the binary name `"git-remote-iap"` the leading `'i'` of
the remainder is also consumed and the registered protocol is `"ap"`, not
`"iap"`. -/
theorem c10_theorem :
    (∀ b : Str, installProtocolName b = b.dropWhile fun c => gitRemoteCutset.contains c) ∧
    installProtocolName gitRemoteIapName = ['a', 'p'] ∧
    (['a', 'p'] : Str) ≠ ['i', 'a', 'p'] := by
  refine ⟨?_, by decide, by decide⟩
  intro b
  induction b with
  | nil => rfl
  | cons a rest ih =>
    rw [installProtocolName, trimLeftCutset, List.dropWhile]
    by_cases hc : gitRemoteCutset.contains a = true
    · rw [if_pos hc, hc]
      exact ih
    · rw [if_neg hc]
      have hf : gitRemoteCutset.contains a = false := by
        simpa using hc
      rw [hf]
